import Mathlib

/-!
Shallow embedding of `src/net/utils.rs` from the `arrow-client`
repository: the `WriteBuffer` staging buffer, the `Timeout` checker and
the `IpAddrEx` byte adapter.  Bytes are modelled as `Nat`; the `u64`
machine arithmetic of the source is `Nat` arithmetic reduced modulo
`2 ^ 64` exactly where the source wraps.
-/

namespace ArrowClient

/-- Modulus of Rust `u64` arithmetic, `2 ^ 64`. -/
def u64Size : Nat := 18446744073709551616

/-- Reduction modulo `2 ^ 64`: the value an overflowing `u64` operation
leaves behind under Rust wrapping semantics. -/
def u64 (n : Nat) : Nat := n % u64Size

/-- State of `Timeout` from `src/net/utils.rs`: a single field
`timeout: Option<u64>`. -/
structure Timeout where
  timeout : Option Nat

/-- Model of `Timeout::new`: the initial state is reset (`None`). -/
def Timeout.new : Timeout := ⟨none⟩

/-- Model of `Timeout::clear`: `self.timeout = None`. -/
def Timeout.clear (_t : Timeout) : Timeout := ⟨none⟩

/-- Model of `Timeout::set`:
`self.timeout = Some(time::precise_time_ns() + delay_ms * 1000000)`.
The monotonic clock reading is passed explicitly as `now`; the `u64`
multiplication and addition wrap modulo `2 ^ 64`. -/
def Timeout.set (_t : Timeout) (now delay_ms : Nat) : Timeout :=
  ⟨some (u64 (now + u64 (delay_ms * 1000000)))⟩

/-- Model of `Timeout::check`: `Some(t) => precise_time_ns() <= t`,
`None => true`, with the clock reading passed explicitly as `now`. -/
def Timeout.check (t : Timeout) (now : Nat) : Bool :=
  match t.timeout with
  | some x => decide (now ≤ x)
  | none => true

/-- State of `WriteBuffer` from `src/net/utils.rs`.  `buffer` is the
`Vec<u8>` storage, whose logical length always equals its physical
capacity because the source calls `set_len(capacity)` after every
allocation; `capacity` is the soft limit; `[offset, offset+used)` is
the valid window. -/
structure WriteBuffer where
  buffer : List Nat
  capacity : Nat
  offset : Nat
  used : Nat
deriving DecidableEq

/-- Model of `WriteBuffer::new(capacity)`: `Vec::with_capacity(capacity)`
may allocate any physical capacity `alloc ≥ capacity`; `set_len` then
makes the whole region logically live (contents uninitialised, modelled
as zeros — no reachable query ever reads them). -/
def WriteBuffer.new (capacity alloc : Nat) : WriteBuffer :=
  { buffer := List.replicate alloc 0, capacity := capacity, offset := 0, used := 0 }

/-- Model of `WriteBuffer::is_full`: `self.used >= self.capacity`. -/
def WriteBuffer.is_full (b : WriteBuffer) : Bool :=
  decide (b.capacity ≤ b.used)

/-- Model of `WriteBuffer::is_empty`: `self.used == 0`. -/
def WriteBuffer.is_empty (b : WriteBuffer) : Bool :=
  decide (b.used = 0)

/-- Model of `WriteBuffer::available`: `0` if full, else
`capacity - used`. -/
def WriteBuffer.available (b : WriteBuffer) : Nat :=
  if b.is_full then 0 else b.capacity - b.used

/-- Model of `WriteBuffer::buffered`: `self.used`. -/
def WriteBuffer.buffered (b : WriteBuffer) : Nat := b.used

/-- Model of `WriteBuffer::as_bytes`: the slice
`&self.buffer[offset .. offset + used]`. -/
def WriteBuffer.as_bytes (b : WriteBuffer) : List Nat :=
  (b.buffer.drop b.offset).take b.used

/-- Model of `WriteBuffer::drop(count)`: clamp `count` to `used`,
advance `offset`, shrink `used`. -/
def WriteBuffer.drop (b : WriteBuffer) (count : Nat) : WriteBuffer :=
  if count > b.used then
    { b with offset := b.offset + b.used, used := 0 }
  else
    { b with offset := b.offset + count, used := b.used - count }

/-- Model of `WriteBuffer::clear`: `offset += used; used = 0`. -/
def WriteBuffer.clear (b : WriteBuffer) : WriteBuffer :=
  { b with offset := b.offset + b.used, used := 0 }

/-- Final block of `WriteBuffer::write`: copy `data` into
`buffer2[offset2 + used ..]` via `write_all` and bump `used`.  Answers
`none` when the tail slice is too short, which in the source is the
panic of `write_all(..).unwrap()`; the totality theorems show this is
unreachable from states satisfying the invariant. -/
def WriteBuffer.writeCopy (b : WriteBuffer) (data buffer2 : List Nat) (offset2 : Nat) :
    Option (WriteBuffer × Nat) :=
  if offset2 + b.used + data.length > buffer2.length then none else
  some ({ b with
            buffer := buffer2.take (offset2 + b.used) ++ data ++
              buffer2.drop (offset2 + b.used + data.length),
            offset := offset2,
            used := b.used + data.length },
        data.length)

/-- Middle block of `WriteBuffer::write`: shift the buffered data to the
start of storage (`ptr::copy` of `used` bytes from `offset` to `0`,
leaving the rest of the storage unchanged) when writing at
`offset + used` would run past the end, then do the final copy. -/
def WriteBuffer.writeShift (b : WriteBuffer) (data buffer1 : List Nat) :
    Option (WriteBuffer × Nat) :=
  if b.offset + b.used + data.length > buffer1.length then
    b.writeCopy data ((buffer1.drop b.offset).take b.used ++ buffer1.drop b.used) 0
  else
    b.writeCopy data buffer1 b.offset

/-- Model of `WriteBuffer::write` (the `Write` impl): expand storage if
needed, shift left if needed, copy the data.  `growCap` is the physical
capacity produced by `Vec::reserve` when growth is triggered; Rust
guarantees `growCap ≥ used + data.len()` and the model answers `none`
when that guarantee is broken. -/
def WriteBuffer.write (b : WriteBuffer) (growCap : Nat) (data : List Nat) :
    Option (WriteBuffer × Nat) :=
  if b.used + data.length > b.buffer.length ∧ growCap < b.used + data.length then none else
  -- expand buffer if needed (reserve + set_len)
  b.writeShift data
    (if b.used + data.length > b.buffer.length then
       b.buffer ++ List.replicate (growCap - b.buffer.length) 0
     else b.buffer)

/-- One call of the buffer's mutating interface, for reasoning about
call sequences.  A `write` records the physical capacity chosen by
`Vec::reserve` for that call. -/
inductive BufOp where
  | write (growCap : Nat) (data : List Nat)
  | drop (count : Nat)
  | clear

/-- Application of one call to a buffer state. -/
def WriteBuffer.applyOp (b : WriteBuffer) : BufOp → Option WriteBuffer
  | .write g d => (b.write g d).map Prod.fst
  | .drop n => some (b.drop n)
  | .clear => some b.clear

/-- Application of a sequence of calls, left to right. -/
def WriteBuffer.applyOps (b : WriteBuffer) : List BufOp → Option WriteBuffer
  | [] => some b
  | op :: ops => (b.applyOp op).bind fun b2 => b2.applyOps ops

/-- Accounting formula of the spec for `buffered()`: the running sum of
appended bytes minus discarded bytes, clamped at zero at each discard
(`Nat` subtraction), and reset by each clear.  This is a spec-side
definition, to be compared with the code's `buffered`. -/
def ledgerSpec : Nat → List BufOp → Nat
  | u, [] => u
  | u, .write _ d :: ops => ledgerSpec (u + d.length) ops
  | u, .drop n :: ops => ledgerSpec (u - n) ops
  | _, .clear :: ops => ledgerSpec 0 ops

/-- Spec invariant on a buffer state: `offset + used ≤ storage.length`
(the `0 ≤` parts are automatic in `Nat`). -/
def WriteBuffer.Inv (b : WriteBuffer) : Prop :=
  b.offset + b.used ≤ b.buffer.length

instance (b : WriteBuffer) : Decidable b.Inv := by
  unfold WriteBuffer.Inv; infer_instance

/-- State of `Ipv4Addr`, reduced to its four octets (`u8` values). -/
structure Ipv4Addr where
  o0 : Nat
  o1 : Nat
  o2 : Nat
  o3 : Nat

/-- Model of `Ipv4Addr::octets`. -/
def Ipv4Addr.octets (a : Ipv4Addr) : List Nat := [a.o0, a.o1, a.o2, a.o3]

/-- Model of `impl IpAddrEx for Ipv4Addr`, `bytes`: start from
`[0u8; 16]` and copy the octets into the leading positions, one loop
step per index. -/
def Ipv4Addr.bytes (a : Ipv4Addr) : List Nat :=
  let octets := a.octets
  (List.range octets.length).foldl
    (fun res i => res.set i (octets.getD i 0))
    (List.replicate 16 0)

/-- Model of `impl IpAddrEx for Ipv4Addr`, `version`. -/
def Ipv4Addr.version (_a : Ipv4Addr) : Nat := 4

/-- State of `Ipv6Addr`, reduced to its eight 16-bit segments
(`u16` values). -/
structure Ipv6Addr where
  s0 : Nat
  s1 : Nat
  s2 : Nat
  s3 : Nat
  s4 : Nat
  s5 : Nat
  s6 : Nat
  s7 : Nat

/-- Model of `Ipv6Addr::segments`. -/
def Ipv6Addr.segments (a : Ipv6Addr) : List Nat :=
  [a.s0, a.s1, a.s2, a.s3, a.s4, a.s5, a.s6, a.s7]

/-- Model of `impl IpAddrEx for Ipv6Addr`, `bytes`: for each segment
`i`, write `(segment >> 8) as u8` at `i << 1` and `(segment & 0xff) as
u8` right after it (the `as u8` casts reduce modulo `256`). -/
def Ipv6Addr.bytes (a : Ipv6Addr) : List Nat :=
  let segments := a.segments
  (List.range segments.length).foldl
    (fun res i =>
      let segment := segments.getD i 0
      let j := i <<< 1
      (res.set j ((segment >>> 8) % 256)).set (j + 1) ((segment &&& 255) % 256))
    (List.replicate 16 0)

/-- Model of `impl IpAddrEx for Ipv6Addr`, `version`. -/
def Ipv6Addr.version (_a : Ipv6Addr) : Nat := 6

/-! ## Helper lemmas about list windows -/

/-- Padding the storage on the right does not change the valid window. -/
theorem window_pad {L P : List Nat} {off u : Nat} (h : off + u ≤ L.length) :
    ((L ++ P).drop off).take u = (L.drop off).take u := by
  rw [List.drop_append_of_le_length (by omega),
      List.take_append_of_le_length (by rw [List.length_drop]; omega)]

/-- The compaction shift moves the valid window to the front unchanged. -/
theorem shift_take {L : List Nat} {off u : Nat} (h : off + u ≤ L.length) :
    ((L.drop off).take u ++ L.drop u).take u = (L.drop off).take u := by
  have hlen : ((L.drop off).take u).length = u := by
    rw [List.length_take, List.length_drop]; omega
  rw [List.take_append_of_le_length (by omega), List.take_of_length_le (by omega)]

/-- The compaction shift preserves the storage length. -/
theorem shift_length {L : List Nat} {off u : Nat} (h : off + u ≤ L.length) :
    ((L.drop off).take u ++ L.drop u).length = L.length := by
  rw [List.length_append, List.length_take, List.length_drop, List.length_drop]; omega

/-- Splicing `d` at position `off + u` extends the window at `off` by
exactly `d`. -/
theorem write_region {L d : List Nat} {off u : Nat}
    (h : off + u + d.length ≤ L.length) :
    ((L.take (off + u) ++ d ++ L.drop (off + u + d.length)).drop off).take (u + d.length)
      = (L.drop off).take u ++ d := by
  have htk : (L.take (off + u)).length = off + u := by
    rw [List.length_take]; omega
  rw [List.append_assoc,
      List.drop_append_of_le_length (by omega),
      List.drop_take]
  have hdl : ((L.drop off).take (off + u - off)).length = u := by
    rw [List.length_take, List.length_drop]; omega
  rw [List.take_append_eq_append_take,
      List.take_of_length_le (by omega),
      hdl]
  have h2 : u + d.length - u = d.length := by omega
  rw [h2, List.take_append_of_le_length (by omega), List.take_length]
  congr 1
  congr 1
  omega

/-- Splicing `d` at position `off + u` preserves the storage length. -/
theorem write_region_length {L d : List Nat} {off u : Nat}
    (h : off + u + d.length ≤ L.length) :
    (L.take (off + u) ++ d ++ L.drop (off + u + d.length)).length = L.length := by
  rw [List.length_append, List.length_append, List.length_take, List.length_drop]
  omega

/-! ## Specifications of the buffer operations -/

/-- Characterisation of a successful `writeCopy`. -/
theorem writeCopy_spec {b : WriteBuffer} {d L2 : List Nat} {off2 : Nat}
    {b2 : WriteBuffer} {k : Nat}
    (hw : b.writeCopy d L2 off2 = some (b2, k)) :
    k = d.length ∧ b2.capacity = b.capacity ∧ b2.offset = off2 ∧
    b2.used = b.used + d.length ∧ off2 + b.used + d.length ≤ L2.length ∧
    b2.buffer.length = L2.length ∧
    b2.as_bytes = (L2.drop off2).take b.used ++ d := by
  unfold WriteBuffer.writeCopy at hw
  split at hw
  · exact absurd hw (by simp)
  · rename_i hcond
    push_neg at hcond
    simp only [Option.some.injEq, Prod.mk.injEq] at hw
    obtain ⟨hb, hk⟩ := hw
    subst hb
    subst hk
    refine ⟨rfl, rfl, rfl, rfl, hcond, write_region_length hcond, ?_⟩
    unfold WriteBuffer.as_bytes
    exact write_region hcond

/-- Characterisation of a successful `writeShift`. -/
theorem writeShift_spec {b : WriteBuffer} {d L1 : List Nat} {b2 : WriteBuffer} {k : Nat}
    (hoff : b.offset + b.used ≤ L1.length)
    (hw : b.writeShift d L1 = some (b2, k)) :
    k = d.length ∧ b2.capacity = b.capacity ∧ b2.used = b.used + d.length ∧
    b2.offset + b2.used ≤ b2.buffer.length ∧ b2.buffer.length = L1.length ∧
    b2.as_bytes = (L1.drop b.offset).take b.used ++ d := by
  unfold WriteBuffer.writeShift at hw
  split at hw
  · obtain ⟨hk, hcap, hoff2, hused, hle, hlen, hbytes⟩ := writeCopy_spec hw
    have hsl := shift_length hoff
    refine ⟨hk, hcap, hused, by omega, by omega, ?_⟩
    rw [hbytes, List.drop_zero]
    congr 1
    exact shift_take hoff
  · obtain ⟨hk, hcap, hoff2, hused, hle, hlen, hbytes⟩ := writeCopy_spec hw
    exact ⟨hk, hcap, hused, by omega, by omega, hbytes⟩

/-- Characterisation of a successful `write`: the count is the full data
length, the capacity is unchanged, the invariant is preserved, storage
fits the new window, and the buffered bytes gain exactly `d`. -/
theorem write_spec {b : WriteBuffer} {g : Nat} {d : List Nat} {b2 : WriteBuffer} {k : Nat}
    (hinv : b.Inv) (hw : b.write g d = some (b2, k)) :
    k = d.length ∧ b2.capacity = b.capacity ∧ b2.used = b.used + d.length ∧
    b2.Inv ∧ b.used + d.length ≤ b2.buffer.length ∧
    b2.as_bytes = b.as_bytes ++ d := by
  unfold WriteBuffer.write at hw
  split at hw
  · exact absurd hw (by simp)
  rename_i hguard
  split at hw
  · rename_i hgrow
    have hoff : b.offset + b.used ≤
        (b.buffer ++ List.replicate (g - b.buffer.length) 0).length := by
      rw [List.length_append, List.length_replicate]
      exact le_trans hinv (Nat.le_add_right _ _)
    obtain ⟨hk, hcap, hused, hinv2, hlen, hbytes⟩ := writeShift_spec hoff hw
    have hng : ¬ g < b.used + d.length := fun hlt => hguard ⟨hgrow, hlt⟩
    refine ⟨hk, hcap, hused, hinv2, ?_, ?_⟩
    · rw [hlen, List.length_append, List.length_replicate]
      omega
    · rw [hbytes]
      unfold WriteBuffer.as_bytes
      congr 1
      exact window_pad hinv
  · rename_i hnogrow
    obtain ⟨hk, hcap, hused, hinv2, hlen, hbytes⟩ := writeShift_spec hinv hw
    exact ⟨hk, hcap, hused, hinv2, by omega, hbytes⟩

/-- Totality of `writeCopy` when the window fits. -/
theorem writeCopy_total {b : WriteBuffer} {d L2 : List Nat} {off2 : Nat}
    (h : off2 + b.used + d.length ≤ L2.length) :
    ∃ b2, b.writeCopy d L2 off2 = some (b2, d.length) := by
  unfold WriteBuffer.writeCopy
  rw [if_neg (by omega)]
  exact ⟨_, rfl⟩

/-- Totality of `writeShift` when storage is large enough. -/
theorem writeShift_total {b : WriteBuffer} {d L1 : List Nat}
    (hoff : b.offset + b.used ≤ L1.length) (hcap : b.used + d.length ≤ L1.length) :
    ∃ b2, b.writeShift d L1 = some (b2, d.length) := by
  unfold WriteBuffer.writeShift
  split
  · apply writeCopy_total
    rw [shift_length hoff]
    omega
  · rename_i h
    apply writeCopy_total
    omega

/-- Totality of `write` under the `Vec::reserve` guarantee
`growCap ≥ used + data.len()`. -/
theorem write_total {b : WriteBuffer} {g : Nat} {d : List Nat}
    (hinv : b.Inv) (hg : b.used + d.length ≤ g) :
    ∃ b2, b.write g d = some (b2, d.length) := by
  unfold WriteBuffer.write
  rw [if_neg (by push_neg; intro _; omega)]
  split
  · rename_i hgrow
    apply writeShift_total
    · rw [List.length_append, List.length_replicate]
      have : b.offset + b.used ≤ b.buffer.length := hinv
      omega
    · rw [List.length_append, List.length_replicate]
      omega
  · rename_i hnogrow
    exact writeShift_total hinv (by omega)

/-- Under the invariant, `as_bytes` has exactly `used` elements. -/
theorem as_bytes_length {b : WriteBuffer} (hinv : b.Inv) :
    b.as_bytes.length = b.used := by
  unfold WriteBuffer.as_bytes
  rw [List.length_take, List.length_drop]
  unfold WriteBuffer.Inv at hinv
  omega

/-- Characterisation of `drop`: the invariant is preserved and the
window loses exactly its first `n` bytes. -/
theorem drop_spec {b : WriteBuffer} (n : Nat) (hinv : b.Inv) :
    (b.drop n).Inv ∧ (b.drop n).as_bytes = b.as_bytes.drop n ∧
    (b.drop n).capacity = b.capacity ∧ (b.drop n).buffer = b.buffer := by
  have hlen := as_bytes_length hinv
  unfold WriteBuffer.Inv at hinv
  unfold WriteBuffer.drop
  split
  · rename_i h
    refine ⟨?_, ?_, rfl, rfl⟩
    · unfold WriteBuffer.Inv
      simp only
      omega
    · unfold WriteBuffer.as_bytes
      simp only [List.take_zero]
      rw [List.drop_eq_nil_of_le (by rw [List.length_take, List.length_drop]; omega)]
  · rename_i h
    refine ⟨?_, ?_, rfl, rfl⟩
    · unfold WriteBuffer.Inv
      simp only
      omega
    · unfold WriteBuffer.as_bytes
      simp only
      rw [List.drop_take, List.drop_drop]

/-- Characterisation of `clear`. -/
theorem clear_spec {b : WriteBuffer} (hinv : b.Inv) :
    b.clear.Inv ∧ b.clear.as_bytes = [] ∧ b.clear.used = 0 ∧
    b.clear.capacity = b.capacity ∧ b.clear.buffer = b.buffer := by
  unfold WriteBuffer.Inv at hinv
  unfold WriteBuffer.clear
  refine ⟨?_, ?_, rfl, rfl, rfl⟩
  · unfold WriteBuffer.Inv
    simp only
    omega
  · unfold WriteBuffer.as_bytes
    simp

/-- Count tracking of `drop` as a plain `Nat` subtraction. -/
theorem drop_used {b : WriteBuffer} (n : Nat) :
    (b.drop n).used = b.used - n := by
  unfold WriteBuffer.drop
  split <;> simp only <;> omega

/-- A successful call sequence preserves the invariant, and `used`
follows the spec ledger. -/
theorem applyOps_spec {b b2 : WriteBuffer} {ops : List BufOp} (hinv : b.Inv)
    (h : b.applyOps ops = some b2) :
    b2.Inv ∧ b2.used = ledgerSpec b.used ops := by
  induction ops generalizing b with
  | nil =>
    simp only [WriteBuffer.applyOps, Option.some.injEq] at h
    rw [← h]
    exact ⟨hinv, rfl⟩
  | cons op ops ih =>
    simp only [WriteBuffer.applyOps] at h
    cases hop : b.applyOp op with
    | none => rw [hop] at h; simp at h
    | some bmid =>
      rw [hop] at h
      rw [Option.some_bind] at h
      cases op with
      | write g d =>
        rw [WriteBuffer.applyOp] at hop
        obtain ⟨⟨b3, k⟩, hw, hfst⟩ := Option.map_eq_some'.mp hop
        have hb3 : b3 = bmid := hfst
        obtain ⟨_, _, hused, hinv2, _, _⟩ := write_spec hinv hw
        have := ih (hb3 ▸ hinv2) h
        rw [ledgerSpec, ← hused, hb3]
        exact this
      | drop n =>
        rw [WriteBuffer.applyOp, Option.some.injEq] at hop
        obtain ⟨hinv2, habytes, hcap, hbuf⟩ := drop_spec n hinv
        have := ih (hop ▸ hinv2) h
        rw [ledgerSpec, ← drop_used (b := b) n, hop]
        exact this
      | clear =>
        rw [WriteBuffer.applyOp, Option.some.injEq] at hop
        obtain ⟨hinv2, habytes, hused, hcap, hbuf⟩ := clear_spec hinv
        have := ih (hop ▸ hinv2) h
        rw [ledgerSpec, ← hused, hop]
        exact this

/-- A successful sequence of writes appends the concatenation of all
written slices to the window. -/
theorem applyWrites_bytes {b b2 : WriteBuffer} {ws : List (Nat × List Nat)}
    (hinv : b.Inv)
    (h : b.applyOps (ws.map fun p => BufOp.write p.1 p.2) = some b2) :
    b2.as_bytes = b.as_bytes ++ (ws.map Prod.snd).flatten := by
  induction ws generalizing b with
  | nil =>
    simp only [List.map_nil, WriteBuffer.applyOps, Option.some.injEq] at h
    rw [← h]
    simp
  | cons w ws ih =>
    simp only [List.map_cons, WriteBuffer.applyOps] at h
    cases hop : b.applyOp (BufOp.write w.1 w.2) with
    | none => rw [hop] at h; simp at h
    | some bmid =>
      rw [hop, Option.some_bind] at h
      rw [WriteBuffer.applyOp] at hop
      obtain ⟨⟨b3, k⟩, hw, hfst⟩ := Option.map_eq_some'.mp hop
      have hb3 : b3 = bmid := hfst
      obtain ⟨_, _, _, hinv2, _, hbytes⟩ := write_spec hinv hw
      have := ih (hb3 ▸ hinv2) h
      rw [this, ← hb3, hbytes]
      simp

/-- Wrapping-friendly rewriting of the stored expiry value. -/
theorem add_mod_mod (a b m : Nat) : (a + b % m) % m = (a + b) % m := by
  conv_rhs => rw [Nat.add_mod]
  rw [Nat.add_mod a (b % m)]
  simp

/-! ## Claim theorems -/

/-- C1: for every sequence of `write` calls applied to a freshly
constructed buffer, `as_bytes` afterwards is exactly the concatenation
of all appended byte slices in order, whatever physical capacities the
intermediate growths chose. -/
theorem wb_append_sequence_concat (c alloc : Nat) (ws : List (Nat × List Nat))
    (b : WriteBuffer) (_hca : c ≤ alloc)
    (h : (WriteBuffer.new c alloc).applyOps (ws.map fun p => BufOp.write p.1 p.2) = some b) :
    b.as_bytes = (ws.map Prod.snd).flatten := by
  have hinv : (WriteBuffer.new c alloc).Inv := Nat.zero_le _
  have := applyWrites_bytes hinv h
  rw [this]
  simp [WriteBuffer.new, WriteBuffer.as_bytes]

/-- Witness for C1 at a concrete two-write trace that triggers growth. -/
theorem wb_append_sequence_concat_witness :
    2 ≤ 2 ∧
    (⟨[1, 2, 3, 4, 5], 2, 0, 5⟩ : WriteBuffer).as_bytes
      = ([((3 : Nat), [1, 2, 3]), (5, [4, 5])].map Prod.snd).flatten :=
  ⟨by decide,
   wb_append_sequence_concat 2 2 [(3, [1, 2, 3]), (5, [4, 5])]
     ⟨[1, 2, 3, 4, 5], 2, 0, 5⟩ (by decide) (by decide)⟩

/-- C2: `drop n` followed by a successful `write d` leaves exactly the
undiscarded suffix of the old window followed by `d`; no discarded byte
reappears, even when the write triggers the compaction shift. -/
theorem wb_discard_append_no_stale (b : WriteBuffer) (n g : Nat) (d : List Nat)
    (b2 : WriteBuffer) (k : Nat) (hinv : b.Inv)
    (hw : (b.drop n).write g d = some (b2, k)) :
    b2.as_bytes = b.as_bytes.drop n ++ d := by
  obtain ⟨hinv2, habytes, _, _⟩ := drop_spec n hinv
  obtain ⟨_, _, _, _, _, hbytes⟩ := write_spec hinv2 hw
  rw [hbytes, habytes]

/-- Witness for C2 at a concrete state where the append shifts the
window to the start of storage over previously discarded bytes. -/
theorem wb_discard_append_no_stale_witness :
    (⟨[1, 2, 3, 4, 5], 2, 0, 5⟩ : WriteBuffer).Inv ∧
    (⟨[3, 4, 5, 6, 7], 2, 0, 5⟩ : WriteBuffer).as_bytes
      = (⟨[1, 2, 3, 4, 5], 2, 0, 5⟩ : WriteBuffer).as_bytes.drop 2 ++ [6, 7] :=
  ⟨by decide,
   wb_discard_append_no_stale ⟨[1, 2, 3, 4, 5], 2, 0, 5⟩ 2 0 [6, 7]
     ⟨[3, 4, 5, 6, 7], 2, 0, 5⟩ 2 (by decide) (by decide)⟩

/-- C3: `0 ≤ offset`, `0 ≤ used` and `offset + used ≤ storage.length`
hold in every buffer state reachable from construction by any sequence
of `write`, `drop` and `clear` calls (the empty sequence gives the
freshly constructed state). -/
theorem wb_invariant_reachable (c alloc : Nat) (ops : List BufOp) (b : WriteBuffer)
    (h : (WriteBuffer.new c alloc).applyOps ops = some b) :
    0 ≤ b.offset ∧ 0 ≤ b.used ∧ b.offset + b.used ≤ b.buffer.length := by
  have hinv : (WriteBuffer.new c alloc).Inv := Nat.zero_le _
  exact ⟨Nat.zero_le _, Nat.zero_le _, (applyOps_spec hinv h).1⟩

/-- Witness for C3 on a trace with growth, compaction and a discard. -/
theorem wb_invariant_reachable_witness :
    0 ≤ (⟨[1, 2, 3, 4, 5], 2, 2, 3⟩ : WriteBuffer).offset ∧
    0 ≤ (⟨[1, 2, 3, 4, 5], 2, 2, 3⟩ : WriteBuffer).used ∧
    (⟨[1, 2, 3, 4, 5], 2, 2, 3⟩ : WriteBuffer).offset
      + (⟨[1, 2, 3, 4, 5], 2, 2, 3⟩ : WriteBuffer).used
      ≤ (⟨[1, 2, 3, 4, 5], 2, 2, 3⟩ : WriteBuffer).buffer.length :=
  wb_invariant_reachable 2 2
    [BufOp.write 3 [1, 2, 3], BufOp.write 5 [4, 5], BufOp.drop 2]
    ⟨[1, 2, 3, 4, 5], 2, 2, 3⟩ (by decide)

/-- C4: under the invariant and the `Vec::reserve` guarantee, `write`
always succeeds, returns exactly `data.length` with no partial-write
case, and leaves storage at least as large as the new window. -/
theorem wb_write_always_succeeds (b : WriteBuffer) (g : Nat) (d : List Nat)
    (hinv : b.Inv) (hg : b.used + d.length ≤ g) :
    ∃ b2, b.write g d = some (b2, d.length) ∧ b.used + d.length ≤ b2.buffer.length := by
  obtain ⟨b2, hw⟩ := write_total hinv hg
  obtain ⟨_, _, _, _, hlen, _⟩ := write_spec hinv hw
  exact ⟨b2, hw, hlen⟩

/-- Witness for C4: a write of three bytes into an empty two-byte
buffer succeeds by growing the storage. -/
theorem wb_write_always_succeeds_witness :
    (⟨[0, 0], 2, 0, 0⟩ : WriteBuffer).Inv ∧
    ∃ b2, (⟨[0, 0], 2, 0, 0⟩ : WriteBuffer).write 3 [9, 9, 9] = some (b2, 3) ∧
      0 + 3 ≤ b2.buffer.length :=
  ⟨by decide, wb_write_always_succeeds ⟨[0, 0], 2, 0, 0⟩ 3 [9, 9, 9] (by decide) (by decide)⟩

/-- C5: `drop count` advances `offset` by `min count used` and decreases
`used` by the same amount, for every state and every count — an
oversized count is clamped, the state still changes, and no failure is
possible (the operation is total). -/
theorem wb_discard_clamped (b : WriteBuffer) (n : Nat) :
    (b.drop n).offset = b.offset + min n b.used ∧
    (b.drop n).used = b.used - min n b.used ∧
    (b.drop n).capacity = b.capacity ∧
    (b.drop n).buffer = b.buffer := by
  unfold WriteBuffer.drop
  split <;> refine ⟨?_, ?_, rfl, rfl⟩ <;> simp only <;> omega

/-- C6: after every successful call sequence from a fresh buffer,
`buffered` equals the spec ledger — appended bytes minus discarded
bytes, clamped at zero at each discard, and reset by each clear. -/
theorem wb_buffered_ledger (c alloc : Nat) (ops : List BufOp) (b : WriteBuffer)
    (_hca : c ≤ alloc)
    (h : (WriteBuffer.new c alloc).applyOps ops = some b) :
    b.buffered = ledgerSpec 0 ops := by
  have hinv : (WriteBuffer.new c alloc).Inv := Nat.zero_le _
  exact (applyOps_spec hinv h).2

/-- Witness for C6 on a trace with an over-large discard and a clear. -/
theorem wb_buffered_ledger_witness :
    2 ≤ 2 ∧
    (⟨[7, 9, 8], 2, 2, 1⟩ : WriteBuffer).buffered
      = ledgerSpec 0 [BufOp.write 3 [1, 2, 3], BufOp.drop 5, BufOp.write 2 [7, 9],
          BufOp.clear, BufOp.write 3 [8]] :=
  ⟨by decide,
   wb_buffered_ledger 2 2
     [BufOp.write 3 [1, 2, 3], BufOp.drop 5, BufOp.write 2 [7, 9],
      BufOp.clear, BufOp.write 3 [8]]
     ⟨[7, 9, 8], 2, 2, 1⟩ (by decide) (by decide)⟩

/-- C7: in every buffer state, `is_full` holds exactly when
`buffered ≥ capacity`, and `available` is `0` exactly when `is_full`
holds and `capacity - buffered` otherwise. -/
theorem wb_full_available_iff (b : WriteBuffer) :
    (b.is_full = true ↔ b.capacity ≤ b.buffered) ∧
    b.available = (if b.is_full = true then 0 else b.capacity - b.buffered) ∧
    (b.available = 0 ↔ b.is_full = true) := by
  have h1 : b.is_full = true ↔ b.capacity ≤ b.buffered := by
    unfold WriteBuffer.is_full WriteBuffer.buffered
    exact decide_eq_true_iff
  refine ⟨h1, rfl, ?_⟩
  unfold WriteBuffer.available
  by_cases h : b.is_full = true
  · simp [h]
  · have h2 : ¬ b.capacity ≤ b.used := fun hc => h (h1.mpr hc)
    simp [h]
    omega

/-- Witness for C7 at a concrete full state. -/
theorem wb_full_available_iff_witness :
    ((⟨[1, 2, 3], 2, 0, 3⟩ : WriteBuffer).is_full = true ↔
      (⟨[1, 2, 3], 2, 0, 3⟩ : WriteBuffer).capacity
        ≤ (⟨[1, 2, 3], 2, 0, 3⟩ : WriteBuffer).buffered) ∧
    (⟨[1, 2, 3], 2, 0, 3⟩ : WriteBuffer).available
      = (if (⟨[1, 2, 3], 2, 0, 3⟩ : WriteBuffer).is_full = true then 0
         else (⟨[1, 2, 3], 2, 0, 3⟩ : WriteBuffer).capacity
           - (⟨[1, 2, 3], 2, 0, 3⟩ : WriteBuffer).buffered) ∧
    ((⟨[1, 2, 3], 2, 0, 3⟩ : WriteBuffer).available = 0 ↔
      (⟨[1, 2, 3], 2, 0, 3⟩ : WriteBuffer).is_full = true) :=
  wb_full_available_iff ⟨[1, 2, 3], 2, 0, 3⟩

/-- C8 counterexample: arming at clock reading `2^64 - 1` with a 1 ms
delay wraps the stored expiry, so `check` at the very same instant is
already `false` although the arming time plus the delay has certainly
not been passed. -/
theorem timeout_check_immediate_false :
    (Timeout.new.set (u64Size - 1) 1).check (u64Size - 1) = false ∧
    u64Size - 1 ≤ (u64Size - 1) + 1 * 1000000 := by
  constructor
  · decide
  · omega

/-- C8 (amended with the no-overflow proviso): unarmed or cleared
timeouts never expire, and after `set` at clock reading `now` with
`now + delay_ms * 1000000 < 2^64`, `check` at reading `now2` is `true`
exactly while `now2 ≤ now + delay_ms * 1000000`. -/
theorem timeout_check_spec (t : Timeout) (now now2 delay_ms : Nat)
    (hfit : now + delay_ms * 1000000 < u64Size) :
    Timeout.new.check now2 = true ∧
    (t.clear).check now2 = true ∧
    ((t.set now delay_ms).check now2 = true ↔ now2 ≤ now + delay_ms * 1000000) := by
  refine ⟨rfl, rfl, ?_⟩
  show decide (now2 ≤ u64 (now + u64 (delay_ms * 1000000))) = true ↔ _
  rw [decide_eq_true_iff]
  have heq : u64 (now + u64 (delay_ms * 1000000)) = now + delay_ms * 1000000 := by
    show (now + delay_ms * 1000000 % u64Size) % u64Size = _
    rw [add_mod_mod]
    exact Nat.mod_eq_of_lt hfit
  rw [heq]

/-- Witness for the amended C8 at small concrete readings. -/
theorem timeout_check_spec_witness :
    5 + 2 * 1000000 < u64Size ∧
    (Timeout.new.check 7 = true ∧ (Timeout.new.clear).check 7 = true ∧
     ((Timeout.new.set 5 2).check 7 = true ↔ 7 ≤ 5 + 2 * 1000000)) :=
  ⟨by decide, timeout_check_spec Timeout.new 5 7 2 (by decide)⟩

/-- C10: `set` stores `(now + delay_ms * 1000000) mod 2^64`, and
whenever the wrapped sum falls below `now` the freshly armed `check`
already answers `false` at the arming instant even though the (then
necessarily positive) delay has not elapsed. -/
theorem timeout_set_wrap_expires (t : Timeout) (now delay_ms : Nat)
    (hnow : now < u64Size)
    (hover : u64Size ≤ now + delay_ms * 1000000 % u64Size) :
    (t.set now delay_ms).timeout = some ((now + delay_ms * 1000000) % u64Size) ∧
    (t.set now delay_ms).check now = false ∧
    0 < delay_ms := by
  have hstore : u64 (now + u64 (delay_ms * 1000000))
      = (now + delay_ms * 1000000) % u64Size := by
    show (now + delay_ms * 1000000 % u64Size) % u64Size = _
    exact add_mod_mod now (delay_ms * 1000000) u64Size
  refine ⟨congrArg some hstore, ?_, ?_⟩
  · show decide (now ≤ u64 (now + u64 (delay_ms * 1000000))) = false
    rw [decide_eq_false_iff_not]
    unfold u64
    unfold u64Size at hover hnow ⊢
    omega
  · unfold u64Size at hover hnow
    omega

/-- Witness for C10 at the clock reading `2^64 - 1` with a 1 ms delay. -/
theorem timeout_set_wrap_expires_witness :
    (u64Size - 1 < u64Size ∧
     u64Size ≤ (u64Size - 1) + 1 * 1000000 % u64Size) ∧
    ((Timeout.new.set (u64Size - 1) 1).timeout
       = some (((u64Size - 1) + 1 * 1000000) % u64Size) ∧
     (Timeout.new.set (u64Size - 1) 1).check (u64Size - 1) = false ∧
     (0 : Nat) < 1) :=
  ⟨⟨by decide, by decide⟩,
   timeout_set_wrap_expires Timeout.new (u64Size - 1) 1 (by decide) (by decide)⟩

set_option maxHeartbeats 1600000 in
/-- C9: for every IPv4 address, `bytes` is the four octets in order
followed by twelve zeros and `version` is `4`; for every IPv6 address
with 16-bit segments, `bytes` places segment `i` big-endian at
positions `2 i` and `2 i + 1` and `version` is `6`. -/
theorem ip_bytes_left_aligned (a4 : Ipv4Addr) (a6 : Ipv6Addr)
    (h0 : a6.s0 < 65536) (h1 : a6.s1 < 65536) (h2 : a6.s2 < 65536)
    (h3 : a6.s3 < 65536) (h4 : a6.s4 < 65536) (h5 : a6.s5 < 65536)
    (h6 : a6.s6 < 65536) (h7 : a6.s7 < 65536) :
    a4.bytes = [a4.o0, a4.o1, a4.o2, a4.o3] ++ List.replicate 12 0 ∧
    a4.version = 4 ∧
    a6.bytes = [a6.s0 / 256, a6.s0 % 256, a6.s1 / 256, a6.s1 % 256,
                a6.s2 / 256, a6.s2 % 256, a6.s3 / 256, a6.s3 % 256,
                a6.s4 / 256, a6.s4 % 256, a6.s5 / 256, a6.s5 % 256,
                a6.s6 / 256, a6.s6 % 256, a6.s7 / 256, a6.s7 % 256] ∧
    a6.version = 6 := by
  have hhi : ∀ s : Nat, s < 65536 → (s >>> 8) % 256 = s / 256 := by
    intro s hs
    rw [Nat.shiftRight_eq_div_pow]
    norm_num
    omega
  have hlo : ∀ s : Nat, (s &&& 255) % 256 = s % 256 := by
    intro s
    have h := Nat.and_pow_two_sub_one_eq_mod s 8
    norm_num at h
    rw [h]
    simp
  have hb : a6.bytes =
      [(a6.s0 >>> 8) % 256, (a6.s0 &&& 255) % 256,
       (a6.s1 >>> 8) % 256, (a6.s1 &&& 255) % 256,
       (a6.s2 >>> 8) % 256, (a6.s2 &&& 255) % 256,
       (a6.s3 >>> 8) % 256, (a6.s3 &&& 255) % 256,
       (a6.s4 >>> 8) % 256, (a6.s4 &&& 255) % 256,
       (a6.s5 >>> 8) % 256, (a6.s5 &&& 255) % 256,
       (a6.s6 >>> 8) % 256, (a6.s6 &&& 255) % 256,
       (a6.s7 >>> 8) % 256, (a6.s7 &&& 255) % 256] := rfl
  refine ⟨rfl, rfl, ?_, rfl⟩
  rw [hb, hhi _ h0, hhi _ h1, hhi _ h2, hhi _ h3, hhi _ h4, hhi _ h5, hhi _ h6,
      hhi _ h7, hlo, hlo, hlo, hlo, hlo, hlo, hlo, hlo]

/-- Witness for C9 at the addresses `192.168.0.1` and `2001:db8::1`. -/
theorem ip_bytes_left_aligned_witness :
    ((8193 : Nat) < 65536 ∧ (3512 : Nat) < 65536 ∧ (0 : Nat) < 65536 ∧ (1 : Nat) < 65536) ∧
    ((⟨192, 168, 0, 1⟩ : Ipv4Addr).bytes
       = [192, 168, 0, 1] ++ List.replicate 12 0 ∧
     (⟨192, 168, 0, 1⟩ : Ipv4Addr).version = 4 ∧
     (⟨8193, 3512, 0, 0, 0, 0, 0, 1⟩ : Ipv6Addr).bytes
       = [8193 / 256, 8193 % 256, 3512 / 256, 3512 % 256,
          0 / 256, 0 % 256, 0 / 256, 0 % 256, 0 / 256, 0 % 256,
          0 / 256, 0 % 256, 0 / 256, 0 % 256, 1 / 256, 1 % 256] ∧
     (⟨8193, 3512, 0, 0, 0, 0, 0, 1⟩ : Ipv6Addr).version = 6) :=
  ⟨⟨by decide, by decide, by decide, by decide⟩,
   ip_bytes_left_aligned ⟨192, 168, 0, 1⟩ ⟨8193, 3512, 0, 0, 0, 0, 0, 1⟩
     (by decide) (by decide) (by decide) (by decide)
     (by decide) (by decide) (by decide) (by decide)⟩

end ArrowClient
